import Mathlib

/-!
# DocuFlow-AI — verification of the session / extraction / fill core

Shallow embedding of the Go server's core logic:
* `server/session` — the in-memory session store (`Create`, `Get`, `Update`)
* `server/handlers` — `HandleGetSession`, `HandleSubmitAnswers`,
  `HandleGetNextQuestion`, `HandleGenerateQuestions`, `HandleUpload`
* `server/docx` — `normalizeFieldName`, `detectFieldsWithAI` post-processing,
  `FillDocument` / `createSimplePlaceholderMap`
* `server/utils` — `InferFieldType`

Go maps `map[string]string` are embedded as association lists
`List (String × String)`; `len(m)` is the list length (the association lists
produced by the embedded operations keep their keys duplicate-free, which the
relevant theorems take as a hypothesis where they need it).  Timestamps are
`Nat`; `time.Now()` becomes an explicit `now` argument.
-/

namespace DocuFlow

/-- Association-list lookup, embedding a Go map read `v, ok := m[k]`. -/
def mapLookup (m : List (String × String)) (k : String) : Option String :=
  (m.find? (fun p => p.1 == k)).map (·.2)

/-- Association-list write, embedding a Go map write `m[k] = v`: overwrites the
entry if the key is present, otherwise appends a new entry. -/
def mapInsert (m : List (String × String)) (k v : String) : List (String × String) :=
  if (m.find? (fun p => p.1 == k)).isSome then
    m.map (fun p => if p.1 == k then (k, v) else p)
  else
    m ++ [(k, v)]

/-- The keys of an embedded Go map. -/
def mapKeys (m : List (String × String)) : List String :=
  m.map Prod.fst

/-- Character-list substring containment: `pat` occurs contiguously in the
list. -/
def listContainsSub (pat : List Char) : List Char → Bool
  | [] => pat.isEmpty
  | c :: rest => pat.isPrefixOf (c :: rest) || listContainsSub pat rest

/-- Embeds `strings.Contains` (substring containment). -/
def strContains (s pat : String) : Bool :=
  listContainsSub pat.data s.data

/-- Embeds `strings.ToLower` (ASCII scope). -/
def strToLower (s : String) : String :=
  ⟨s.data.map Char.toLower⟩

/-- Embeds `server/utils.InferFieldType`: date if the lowercased name contains
a date keyword, else number if it contains a number keyword, else text. -/
def InferFieldType (fieldName : String) : String :=
  let lowerField := strToLower fieldName
  if ["date", "dob", "birth", "deadline", "expiry", "expiration",
      "anniversary"].any (fun p => strContains lowerField p) then
    "date"
  else if ["age", "count", "number", "amount", "quantity", "price", "total",
      "sum", "year", "months", "days", "hours"].any
      (fun p => strContains lowerField p) then
    "number"
  else
    "text"

/-- Embeds `models.Session` (the `OriginalDoc` byte payload is carried as a
`String` of its text content; it plays no role in the session handlers). -/
structure Session where
  id : String
  originalDoc : String
  fields : List String
  fieldTypes : List (String × String)
  answers : List (String × String)
  questions : List (String × String)
  createdAt : Nat
  updatedAt : Nat
  deriving Repr, DecidableEq

/-- Embeds `session.Store.Create`: fresh session with inferred field types and
empty answer/question maps, both timestamps set to `now`. -/
def sessionCreate (id doc : String) (fields : List String) (now : Nat) : Session :=
  { id := id
    originalDoc := doc
    fields := fields
    fieldTypes := fields.map (fun f => (f, InferFieldType f))
    answers := []
    questions := []
    createdAt := now
    updatedAt := now }

/-- Embeds `models.ErrorResponse`. -/
structure ErrorResponse where
  error : String
  message : String
  deriving Repr, DecidableEq

/-- Embeds `models.SessionStatusResponse`. -/
structure SessionStatusResponse where
  sessionId : String
  fields : List String
  answers : List (String × String)
  questions : List (String × String)
  progress : Nat
  total : Nat
  isCompleted : Bool
  deriving Repr, DecidableEq

/-- Embeds the success path of `handlers.HandleGetSession` (the store lookup
having succeeded): `Progress = len(Answers)`, `Total = len(Fields)`,
`IsCompleted = (len(Answers) == len(Fields))`. -/
def HandleGetSession (s : Session) : SessionStatusResponse :=
  let answeredCount := s.answers.length
  { sessionId := s.id
    fields := s.fields
    answers := s.answers
    questions := s.questions
    progress := answeredCount
    total := s.fields.length
    isCompleted := answeredCount == s.fields.length }

/-- Embeds `models.QuestionResponse`.  Fields the Go handler leaves unset in a
struct literal take the Go zero value (`""` / `false` / `0`). -/
structure QuestionResponse where
  field : String
  fieldType : String
  question : String
  isAIPhrased : Bool
  progress : Nat
  total : Nat
  done : Bool
  deriving Repr, DecidableEq

/-- Splits a character list on a separator character, embedding
`strings.Split` with a one-character separator (`Split("", sep)` is `[""]`,
matching Go). -/
def splitOnChar (sep : Char) : List Char → List (List Char)
  | [] => [[]]
  | c :: rest =>
    let r := splitOnChar sep rest
    if c == sep then [] :: r
    else
      match r with
      | [] => [[c]]
      | w :: ws => (c :: w) :: ws

/-- Capitalizes the first character of a word, embedding the loop body
`strings.ToUpper(string(word[0])) + word[1:]` (character-level scope; the Go
code indexes the first byte, which coincides for ASCII words). -/
def capitalizeWordChars : List Char → List Char
  | [] => []
  | c :: cs => c.toUpper :: cs

/-- Embeds `handlers.humanizeFieldName`: split on `_`, capitalize each
non-empty word's first letter, join with spaces, wrap in the question. -/
def humanizeFieldName (field : String) : String :=
  "What is the " ++
    String.mk (List.intercalate [' ']
      ((splitOnChar '_' field.data).map capitalizeWordChars)) ++ "?"

/-- Embeds the success path of `handlers.HandleGetNextQuestion`: scan
`sess.Fields` for the first field with no key in `sess.Answers`; reply with
its question (AI-phrased from `sess.Questions` if present, else the humanized
fallback).  Note the Go struct literal never sets `FieldType`, so it stays at
the zero value `""`. -/
def HandleGetNextQuestion (s : Session) : QuestionResponse :=
  match s.fields.find? (fun f => (mapLookup s.answers f).isNone) with
  | some field =>
    let q := mapLookup s.questions field
    { field := field
      fieldType := ""
      question := q.getD (humanizeFieldName field)
      isAIPhrased := q.isSome
      progress := s.answers.length
      total := s.fields.length
      done := false }
  | none =>
    { field := ""
      fieldType := ""
      question := ""
      isAIPhrased := false
      progress := s.answers.length
      total := s.fields.length
      done := true }

/-- The body JSON of the 200 reply of `handlers.HandleSubmitAnswers`. -/
structure AnswerOkResponse where
  message : String
  field : String
  progress : Nat
  total : Nat
  deriving Repr, DecidableEq

/-- Embeds the post-`Get` path of `handlers.HandleSubmitAnswers` together with
`session.Store.Update`: reject a field absent from `sess.Fields` (exact string
equality loop) without touching the session; otherwise write
`Answers[field] = answer` and refresh `UpdatedAt`.  The returned session is
the store's state after the call.  The Go handler reads
`len(sess.Answers) + 1` for the reply's `progress` from the session pointer it
has already mutated, hence the reply carries the *updated* answer count plus
one. -/
def HandleSubmitAnswers (now : Nat) (s : Session) (field answer : String) :
    Session × Except ErrorResponse AnswerOkResponse :=
  if s.fields.contains field then
    let s' := { s with answers := mapInsert s.answers field answer, updatedAt := now }
    (s', .ok { message := "Answer saved successfully."
               field := field
               progress := s'.answers.length + 1
               total := s'.fields.length })
  else
    (s, .error { error := "invalid_field"
                 message := "Field '" ++ field ++ "' does not exist in this document." })

/-- Embeds the mutator the generate-questions handler passes to
`Store.Update` (`HandleGenerateQuestions`, `server/handlers`): for every
entry of the oracle-returned metadata map (embedded as a list of
`(field, question, type)` triples) write `Questions[field] = question` and
`FieldTypes[field] = type` — with no check that `field` occurs in
`sess.Fields`. -/
def HandleGenerateQuestionsUpdate (metadata : List (String × String × String))
    (now : Nat) (s : Session) : Session :=
  { s with
    questions := metadata.foldl (fun qs m => mapInsert qs m.1 m.2.1) s.questions
    fieldTypes := metadata.foldl (fun ts m => mapInsert ts m.1 m.2.2) s.fieldTypes
    updatedAt := now }

/-! ## `server/docx` — field-name normalization and detection post-processing -/

/-- Trims characters satisfying `p` from both ends of a character list,
embedding Go's `strings.Trim`-family functions. -/
def trimList (p : Char → Bool) (l : List Char) : List Char :=
  ((l.dropWhile p).reverse.dropWhile p).reverse

/-- The cutset of `strings.Trim(field, "[]{}()$")` in `normalizeFieldName`. -/
def inCutset (c : Char) : Bool :=
  ['[', ']', '{', '}', '(', ')', '$'].contains c

/-- The character class kept by `normalizeFieldName`'s final loop:
`[a-z0-9_]` (rune comparisons are code-point comparisons, stated on
`Char.toNat`). -/
def isFieldChar (c : Char) : Bool :=
  (97 ≤ c.toNat && c.toNat ≤ 122) || (48 ≤ c.toNat && c.toNat ≤ 57) || c.toNat == 95

/-- Embeds `docx.normalizeFieldName` on character lists: trim the
`[]{}()$` cutset, trim whitespace, lowercase, replace the space character by
underscore, keep only `[a-z0-9_]`. -/
def normalizeChars (l : List Char) : List Char :=
  let l1 := trimList inCutset l
  let l2 := trimList Char.isWhitespace l1
  let l3 := l2.map Char.toLower
  let l4 := l3.map (fun c => if c == ' ' then '_' else c)
  l4.filter isFieldChar

/-- Embeds `docx.normalizeFieldName`. -/
def normalizeFieldName (field : String) : String :=
  ⟨normalizeChars field.data⟩

/-- Modelled from the spec's normalization rule as worded in §3 (the
comparison point for the extractor claim): "lowercase, whitespace→underscore,
non `[a-z0-9_]` stripped, surrounding bracket/brace/dollar markers removed".
Note it replaces *every whitespace character* by underscore, where the code
replaces only the space character. -/
def specNormalizeFieldName (field : String) : String :=
  let l1 := trimList (fun c => ['[', ']', '{', '}', '$'].contains c) field.data
  let l2 := l1.map Char.toLower
  let l3 := l2.map (fun c => if c.isWhitespace then '_' else c)
  ⟨l3.filter isFieldChar⟩

/-- Lexicographic comparison of character lists by code point, embedding the
string order of Go's `sort.Strings` (byte-wise UTF-8 comparison coincides
with code-point order). -/
def charListLe : List Char → List Char → Bool
  | [], _ => true
  | _ :: _, [] => false
  | a :: as, b :: bs => if a < b then true else if b < a then false else charListLe as bs

/-- The string order used by `sort.Strings`. -/
def strLeGo (s t : String) : Bool :=
  charListLe s.data t.data

/-- Embeds the post-parse tail of `docx.detectFieldsWithAI` (detect.go lines
229–248): normalize each oracle-returned name, collect the distinct results
(the Go `map[string]struct{}` set), and sort lexicographically
(`sort.Strings`). -/
def detectFieldsWithAIPost (fieldList : List String) : List String :=
  ((fieldList.map normalizeFieldName).dedup).insertionSort (fun a b => strLeGo a b = true)

/-! ## `server/docx` — quota-error classification and the upload boundary -/

/-- The keyword list of `docx.isGeminiQuotaError`. -/
def quotaKeywords : List String :=
  ["quota", "resource_exhausted", "rate limit", "rate_limit",
   "quota exceeded", "quota_exceeded"]

/-- Embeds `docx.isGeminiQuotaError`: HTTP 429, or a quota keyword in the
lowercased response body.  (The function's third branch re-checks the same
keywords inside the JSON-decoded `error.message`/`error.status` fields; for a
body in which those fields appear unescaped they are substrings of the raw
body and already caught by the scan modelled here.) -/
def isGeminiQuotaError (statusCode : Nat) (body : String) : Bool :=
  statusCode == 429 ||
    quotaKeywords.any (fun k => strContains (strToLower body) k)

/-- The two error conditions `docx.detectFieldsWithAI` can produce from a
non-200 oracle reply: the sentinel `ErrGeminiQuotaExhausted`, or a generic
formatted error. -/
inductive DetectError
  | quotaExhausted
  | generic (msg : String)
  deriving Repr, DecidableEq

/-- The `Error()` text of each condition (`errors.New("gemini_quota_exhausted")`
for the sentinel). -/
def detectErrText : DetectError → String
  | .quotaExhausted => "gemini_quota_exhausted"
  | .generic msg => msg

/-- Embeds the non-200 branch of `docx.detectFieldsWithAI`:
quota-classified replies yield the distinct sentinel, all others the generic
formatted error. -/
def detectFieldsWithAIErr (statusCode : Nat) (body : String) : DetectError :=
  if isGeminiQuotaError statusCode body then .quotaExhausted
  else .generic ("Gemini API error (status " ++ toString statusCode ++ "): " ++ body)

/-- A Go error produced by wrapping with `fmt.Errorf("...: %w", err)`: the
wrapped identity (inspectable via `errors.Is`) plus the formatted text. -/
structure WrappedErr where
  kind : DetectError
  text : String
  deriving Repr, DecidableEq

/-- Embeds the error wrapping of `docx.DetectFields`: an extraction-oracle
error is wrapped as `fmt.Errorf("AI field detection failed: %w", err)`,
keeping the sentinel's identity inside the wrapper. -/
def DetectFieldsWrap (e : DetectError) : WrappedErr :=
  { kind := e, text := "AI field detection failed: " ++ detectErrText e }

/-- Embeds `docx.DetectFields` after the document-reading steps: forwards the
oracle outcome, wrapping any error. -/
def DetectFieldsResult (aiResult : Except DetectError (List String)) :
    Except WrappedErr (List String) :=
  match aiResult with
  | .ok fs => .ok fs
  | .error e => .error (DetectFieldsWrap e)

/-- Embeds the detection-failure branch of `handlers.HandleUpload` (upload.go
lines 67–75): every `DetectFields` error is answered with the single error
code `field_detection_error` and the error text appended to the message. -/
def HandleUploadDetectFailure (e : WrappedErr) : ErrorResponse :=
  { error := "field_detection_error"
    message := "Failed to detect fields in document. Error: " ++ e.text }

/-- The HTTP error response the upload operation surfaces when field
detection fails with oracle error `e`: the composition of the `DetectFields`
wrapping and the handler's error branch. -/
def uploadOnDetectError (e : DetectError) : ErrorResponse :=
  HandleUploadDetectFailure (DetectFieldsWrap e)

/-! ## `server/docx` — document filling and the heuristic fallback -/

/-- Embeds Go's `isSeparator` (used by `strings.Title`) on the ASCII range:
ASCII alphanumerics and underscore are not separators, every other ASCII
character is; beyond ASCII the embedding keeps the whitespace case. -/
def isSeparator (c : Char) : Bool :=
  if c.toNat ≤ 0x7F then
    !(('0' ≤ c && c ≤ '9') || ('a' ≤ c && c ≤ 'z') ||
      ('A' ≤ c && c ≤ 'Z') || c == '_')
  else c.isWhitespace

/-- The scan of `strings.Title`: capitalize a character when the previous one
is a separator. -/
def titleChars : Char → List Char → List Char
  | _, [] => []
  | prev, c :: cs => (if isSeparator prev then c.toUpper else c) :: titleChars c cs

/-- Embeds `strings.Title` (the scan starts with `prev = ' '`). -/
def stringsTitle (s : String) : String :=
  ⟨titleChars ' ' s.data⟩

/-- Embeds `strings.ReplaceAll(field, "_", " ")`. -/
def underscoresToSpaces (f : String) : String :=
  ⟨f.data.map (fun c => if c == '_' then ' ' else c)⟩

/-- Embeds `strings.ReplaceAll(field, "_", "")`. -/
def removeUnderscores (f : String) : String :=
  ⟨f.data.filter (fun c => !(c == '_'))⟩

/-- Embeds `docx.createSimplePlaceholderMap`: for each answered field the four
candidate placeholder spellings, each mapped to the answer.  (The Go function
accumulates them in a `map[string]string`; the embedding keeps the generation
order as a list.) -/
def createSimplePlaceholderMap (answers : List (String × String)) :
    List (String × String) :=
  answers.flatMap (fun fa =>
    [("\x7b\x7b" ++ fa.1 ++ "\x7d\x7d", fa.2),
     ("[" ++ fa.1 ++ "]", fa.2),
     ("[" ++ stringsTitle (underscoresToSpaces fa.1) ++ "]", fa.2),
     ("[" ++ removeUnderscores fa.1 ++ "]", fa.2)])

/-- Embeds the final mapping step of `docx.createSmartPlaceholderMap`: pair
each oracle-resolved placeholder with the answer of its field. -/
def createSmartPlaceholderMap (answers : List (String × String))
    (mapping : List (String × String)) : List (String × String) :=
  mapping.foldl (fun res fp =>
    match mapLookup answers fp.1 with
    | some a => res ++ [(fp.2, a)]
    | none => res) []

/-- Fuel-indexed all-occurrence replacement on character lists: at each
position, if the (non-empty) pattern matches, emit the replacement and resume
after the match, else keep the character.  The fuel is initialized to the
list length, which bounds the recursion. -/
def replaceChars (pat rep : List Char) : Nat → List Char → List Char
  | 0, l => l
  | _ + 1, [] => []
  | fuel + 1, c :: rest =>
    if pat.isPrefixOf (c :: rest) && !pat.isEmpty then
      rep ++ replaceChars pat rep fuel ((c :: rest).drop pat.length)
    else
      c :: replaceChars pat rep fuel rest

/-- Embeds `strings.Replace(s, old, new, -1)` for a non-empty `old` (every
placeholder string the fill engine generates is non-empty; for an empty
pattern the embedding is the identity). -/
def strReplaceAll (s pat rep : String) : String :=
  ⟨replaceChars pat.data rep.data s.data.length s.data⟩

/-- Replaces each placeholder by its answer everywhere in the document,
embedding the loop `editable.Replace(placeholder, answer, -1)`. -/
def applyReplacements (pm : List (String × String)) (doc : String) : String :=
  pm.foldl (fun d p => strReplaceAll d p.1 p.2) doc

/-- The outcome of the oracle-assisted resolution step
(`docx.createSmartPlaceholderMap`'s API call): a field → literal-placeholder
mapping, or a failure with a reason (quota, malformed reply, network, missing
key — any error surfaces here the same way). -/
inductive ResolveOutcome
  | ok (mapping : List (String × String))
  | fail (reason : String)

/-- Embeds the replacement core of `docx.FillDocument` (part of the
`server/docx` fill engine): on oracle failure it falls back to
`createSimplePlaceholderMap` and still produces a document; the temp-file
read/write steps around the replacement (the only other failure sources) are
outside the embedding. -/
def FillDocument (oracle : ResolveOutcome) (doc : String)
    (answers : List (String × String)) : Except String String :=
  let pm := match oracle with
    | .ok mapping => createSmartPlaceholderMap answers mapping
    | .fail _ => createSimplePlaceholderMap answers
  .ok (applyReplacements pm doc)

/-- A concrete session used to evaluate the theorems at explicit inputs. -/
def sampleSession : Session :=
  { id := "s"
    originalDoc := ""
    fields := ["a", "b"]
    fieldTypes := [("a", "text"), ("b", "text")]
    answers := [("a", "x")]
    questions := [("b", "Which b?")]
    createdAt := 0
    updatedAt := 0 }

/-- The sample session with every field answered. -/
def doneSampleSession : Session :=
  { sampleSession with answers := [("a", "x"), ("b", "y")] }

/-- A session reached by creating with field list `["a"]` and then applying
the question-enrichment mutator with an oracle reply naming the foreign field
`"c"`. -/
def badEnrichSession : Session :=
  HandleGenerateQuestionsUpdate [("c", "Q", "text")] 1 (sessionCreate "s" "" ["a"] 0)

/-- A session reached by create, submit and a well-behaved enrichment step. -/
def checkedSampleSession : Session :=
  HandleGenerateQuestionsUpdate [("a", "Q", "text")] 2
    ((HandleSubmitAnswers 1 (sessionCreate "s" "" ["a", "b"] 0) "a" "x").1)

/-! ## Reachable session states -/

/-- Session states reachable through the embedded operations: creation,
answer submission, and question/type enrichment, the latter applying
whatever metadata map the oracle returned. -/
inductive Reachable : Session → Prop
  | create (id doc : String) (fields : List String) (now : Nat) :
      Reachable (sessionCreate id doc fields now)
  | submit (now : Nat) (field answer : String) {s : Session} :
      Reachable s → Reachable (HandleSubmitAnswers now s field answer).1
  | enrich (metadata : List (String × String × String)) (now : Nat) {s : Session} :
      Reachable s → Reachable (HandleGenerateQuestionsUpdate metadata now s)

/-- Reachability restricted to enrichment steps whose oracle-returned
metadata only names fields of the session. -/
inductive ReachableChecked : Session → Prop
  | create (id doc : String) (fields : List String) (now : Nat) :
      ReachableChecked (sessionCreate id doc fields now)
  | submit (now : Nat) (field answer : String) {s : Session} :
      ReachableChecked s → ReachableChecked (HandleSubmitAnswers now s field answer).1
  | enrich (metadata : List (String × String × String)) (now : Nat) {s : Session} :
      ReachableChecked s → (∀ m ∈ metadata, m.1 ∈ s.fields) →
      ReachableChecked (HandleGenerateQuestionsUpdate metadata now s)

/-! ## Helper lemmas about the embedded map operations -/

lemma mapKeys_length (m : List (String × String)) : (mapKeys m).length = m.length :=
  List.length_map m Prod.fst

lemma mapLookup_isSome_iff (m : List (String × String)) (k : String) :
    (mapLookup m k).isSome = true ↔ k ∈ mapKeys m := by
  simp [mapLookup, mapKeys, List.find?_isSome, List.mem_map]

lemma mapLookup_eq_none_iff (m : List (String × String)) (k : String) :
    mapLookup m k = none ↔ k ∉ mapKeys m := by
  rw [← mapLookup_isSome_iff]
  cases mapLookup m k <;> simp

lemma find?_map_insertMap (m : List (String × String)) (k v : String)
    (h : (m.find? (fun p => p.1 == k)).isSome = true) :
    ((m.map (fun p => if p.1 == k then (k, v) else p)).find? (fun p => p.1 == k)) =
      some (k, v) := by
  induction m with
  | nil => simp at h
  | cons p rest ih =>
    by_cases hp : p.1 = k
    · simp [hp]
    · have h' : (rest.find? (fun p => p.1 == k)).isSome = true := by
        simpa [List.find?_cons_of_neg, hp] using h
      simpa [hp] using ih h'

lemma mapLookup_mapInsert_self (m : List (String × String)) (k v : String) :
    mapLookup (mapInsert m k v) k = some v := by
  by_cases h : (m.find? (fun p => p.1 == k)).isSome = true
  · simp only [mapInsert, h, if_true, mapLookup]
    rw [find?_map_insertMap m k v h]
    rfl
  · have hn : m.find? (fun p => p.1 == k) = none := by
      cases hf : m.find? (fun p => p.1 == k) <;> simp [hf] at h ⊢
    simp only [mapInsert, h, if_false, Bool.false_eq_true, mapLookup]
    rw [List.find?_append, hn]
    simp

lemma mapKeys_mapInsert_of_present (m : List (String × String)) (k v : String)
    (h : (m.find? (fun p => p.1 == k)).isSome = true) :
    mapKeys (mapInsert m k v) = mapKeys m := by
  simp only [mapInsert, h, if_true, mapKeys, List.map_map]
  apply List.map_congr_left
  intro p _
  by_cases hp : p.1 = k
  · simp [hp]
  · simp [hp]

lemma mem_mapKeys_mapInsert (m : List (String × String)) (k v x : String)
    (hx : x ∈ mapKeys (mapInsert m k v)) : x ∈ mapKeys m ∨ x = k := by
  by_cases h : (m.find? (fun p => p.1 == k)).isSome = true
  · rw [mapKeys_mapInsert_of_present m k v h] at hx
    exact Or.inl hx
  · have : mapKeys (mapInsert m k v) = mapKeys m ++ [k] := by
      simp [mapInsert, h, mapKeys]
    rw [this] at hx
    simpa using hx

lemma mapKeys_mapInsert_nodup (m : List (String × String)) (k v : String)
    (h : (mapKeys m).Nodup) : (mapKeys (mapInsert m k v)).Nodup := by
  by_cases hp : (m.find? (fun p => p.1 == k)).isSome = true
  · rwa [mapKeys_mapInsert_of_present m k v hp]
  · have hn : m.find? (fun p => p.1 == k) = none := by
      cases hf : m.find? (fun p => p.1 == k) <;> simp [hf] at hp ⊢
    have hk : k ∉ mapKeys m := by
      intro hmem
      rcases List.mem_map.1 hmem with ⟨p, hpm, hpk⟩
      have := List.find?_eq_none.1 hn p hpm
      simp [hpk] at this
    have : mapKeys (mapInsert m k v) = mapKeys m ++ [k] := by
      simp [mapInsert, hp, mapKeys]
    rw [this]
    simp [List.nodup_append, h, hk]

lemma length_eq_iff_all_mem (keys fields : List String)
    (hsub : ∀ k ∈ keys, k ∈ fields) (hk : keys.Nodup) (hf : fields.Nodup) :
    keys.length = fields.length ↔ ∀ f ∈ fields, f ∈ keys := by
  have hsubF : keys.toFinset ⊆ fields.toFinset := fun x hx =>
    List.mem_toFinset.2 (hsub x (List.mem_toFinset.1 hx))
  constructor
  · intro hlen f hfmem
    have hcard : fields.toFinset.card ≤ keys.toFinset.card := by
      rw [List.toFinset_card_of_nodup hk, List.toFinset_card_of_nodup hf, hlen]
    have heq := Finset.eq_of_subset_of_card_le hsubF hcard
    have : f ∈ keys.toFinset := by rw [heq]; exact List.mem_toFinset.2 hfmem
    exact List.mem_toFinset.1 this
  · intro hall
    have heq : keys.toFinset = fields.toFinset :=
      Finset.Subset.antisymm hsubF
        (fun x hx => List.mem_toFinset.2 (hall x (List.mem_toFinset.1 hx)))
    calc keys.length = keys.toFinset.card := (List.toFinset_card_of_nodup hk).symm
      _ = fields.toFinset.card := by rw [heq]
      _ = fields.length := List.toFinset_card_of_nodup hf

lemma filter_answered_length (fields : List String) (m : List (String × String))
    (hsub : ∀ k ∈ mapKeys m, k ∈ fields) (hk : (mapKeys m).Nodup)
    (hf : fields.Nodup) :
    (fields.filter (fun f => (mapLookup m f).isSome)).length = m.length := by
  have hcong : fields.filter (fun f => (mapLookup m f).isSome) =
      fields.filter (fun f => decide (f ∈ mapKeys m)) := by
    apply List.filter_congr
    intro a _
    by_cases hmem : a ∈ mapKeys m
    · simp [hmem, (mapLookup_isSome_iff m a).2 hmem]
    · have hnone : mapLookup m a = none := (mapLookup_eq_none_iff m a).2 hmem
      simp [hmem, hnone]
  rw [hcong]
  have h1 : (fields.filter (fun f => decide (f ∈ mapKeys m))).Nodup := hf.filter _
  have h2 : (fields.filter (fun f => decide (f ∈ mapKeys m))).toFinset =
      (mapKeys m).toFinset := by
    ext x
    simp only [List.mem_toFinset, List.mem_filter, decide_eq_true_eq]
    constructor
    · exact fun h => h.2
    · exact fun hx => ⟨hsub x hx, hx⟩
  calc (fields.filter (fun f => decide (f ∈ mapKeys m))).length
      = (fields.filter (fun f => decide (f ∈ mapKeys m))).toFinset.card :=
        (List.toFinset_card_of_nodup h1).symm
    _ = (mapKeys m).toFinset.card := by rw [h2]
    _ = (mapKeys m).length := List.toFinset_card_of_nodup hk
    _ = m.length := mapKeys_length m

lemma find?_eq_of_first (p : String → Bool) :
    ∀ (l : List String) (i : Nat) (hi : i < l.length),
      p (l.get ⟨i, hi⟩) = true →
      (∀ j (hj : j < l.length), j < i → p (l.get ⟨j, hj⟩) = false) →
      l.find? p = some (l.get ⟨i, hi⟩)
  | [], i, hi, _, _ => absurd hi (by simp)
  | a :: as, 0, _, hp, _ => by
    simp only [List.get] at hp ⊢
    simp [List.find?_cons_of_pos, hp]
  | a :: as, n + 1, hi, hp, hbefore => by
    have ha : p a = false := hbefore 0 (by simp) (by omega)
    have hrec := find?_eq_of_first p as n (by simpa using Nat.lt_of_succ_lt_succ hi)
      (by simpa using hp)
      (fun j hj hlt => by
        have := hbefore (j + 1) (by simpa using Nat.succ_lt_succ hj) (by omega)
        simpa using this)
    simp only [List.get] at hrec ⊢
    rw [List.find?_cons_of_neg _ (by simp [ha])]
    exact hrec

/-! ## Claim theorems -/

/-- **C1.** For every session (whose answer keys are a duplicate-free subset
of the duplicate-free fields list), the `isCompleted` value returned by the
get-session operation is true iff the number of keys in the session's answers
map equals the number of entries in its fields list, equivalently iff every
field in `fields` has a key in `answers`; the answers map carries no record of
submission order, so both characterizations are order-independent. -/
theorem getSession_isCompleted_iff (s : Session)
    (hsub : ∀ k ∈ mapKeys s.answers, k ∈ s.fields)
    (hknd : (mapKeys s.answers).Nodup)
    (hfnd : s.fields.Nodup) :
    ((HandleGetSession s).isCompleted = true ↔ s.answers.length = s.fields.length)
    ∧ ((HandleGetSession s).isCompleted = true ↔
        ∀ f ∈ s.fields, (mapLookup s.answers f).isSome = true) := by
  have hbeq : (HandleGetSession s).isCompleted = (s.answers.length == s.fields.length) := rfl
  constructor
  · rw [hbeq]
    exact beq_iff_eq
  · rw [hbeq]
    constructor
    · intro h f hf
      have hlen : s.answers.length = s.fields.length := beq_iff_eq.1 h
      have hkeys : (mapKeys s.answers).length = s.fields.length := by
        rw [mapKeys_length]; exact hlen
      have hmem :=
        (length_eq_iff_all_mem (mapKeys s.answers) s.fields hsub hknd hfnd).1 hkeys f hf
      exact (mapLookup_isSome_iff s.answers f).2 hmem
    · intro h
      have hall : ∀ f ∈ s.fields, f ∈ mapKeys s.answers := fun f hf =>
        (mapLookup_isSome_iff s.answers f).1 (h f hf)
      have hkeys := (length_eq_iff_all_mem (mapKeys s.answers) s.fields hsub hknd hfnd).2 hall
      rw [mapKeys_length] at hkeys
      exact beq_iff_eq.2 hkeys

/-- Witness for C1: the theorem applied to a concrete session with one of two
fields answered (both sides of each equivalence are false there). -/
theorem getSession_isCompleted_iff_witness :
    ((HandleGetSession sampleSession).isCompleted = true ↔
        sampleSession.answers.length = sampleSession.fields.length)
    ∧ ((HandleGetSession sampleSession).isCompleted = true ↔
        ∀ f ∈ sampleSession.fields, (mapLookup sampleSession.answers f).isSome = true) :=
  getSession_isCompleted_iff sampleSession (by decide) (by decide) (by decide)

/-- **C2.** If the `i`-th field is the first one absent from `answers`, the
next-question operation returns exactly that field, with question text taken
from the `questions` map when present and otherwise
`"What is the " ++` (field name, underscores to spaces, each word's first
letter capitalized) `++ "?"`, progress `len(answers)` and total
`len(fields)`; if every field is answered it returns the `Done` signal with
the same counters.  The scan consults only the key set of `answers`, so the
order answers were submitted in is irrelevant; under the key-subset/nodup
invariants `len(answers)` is the number of answered fields. -/
theorem nextQuestion_spec (s : Session) :
    (∀ i (hi : i < s.fields.length),
      mapLookup s.answers s.fields[i] = none →
      (∀ j (hj : j < s.fields.length), j < i →
        mapLookup s.answers s.fields[j] ≠ none) →
      HandleGetNextQuestion s =
        { field := s.fields[i]
          fieldType := ""
          question :=
            match mapLookup s.questions s.fields[i] with
            | some q => q
            | none =>
                "What is the " ++
                  String.mk (List.intercalate [' ']
                    ((splitOnChar '_' s.fields[i].data).map
                      capitalizeWordChars)) ++ "?"
          isAIPhrased := (mapLookup s.questions s.fields[i]).isSome
          progress := s.answers.length
          total := s.fields.length
          done := false })
    ∧ ((∀ f ∈ s.fields, mapLookup s.answers f ≠ none) →
      HandleGetNextQuestion s =
        { field := "", fieldType := "", question := "", isAIPhrased := false
          progress := s.answers.length, total := s.fields.length, done := true })
    ∧ ((∀ k ∈ mapKeys s.answers, k ∈ s.fields) → (mapKeys s.answers).Nodup →
        s.fields.Nodup →
        s.answers.length =
          (s.fields.filter (fun f => (mapLookup s.answers f).isSome)).length)
    ∧ ((∀ f ∈ s.fields, mapLookup s.answers f ≠ none) →
        (∀ k ∈ mapKeys s.answers, k ∈ s.fields) → (mapKeys s.answers).Nodup →
        s.fields.Nodup →
        s.answers.length = s.fields.length) := by
  refine ⟨?_, ?_, ?_, ?_⟩
  · intro i hi hnone hbefore
    have hfind : s.fields.find? (fun f => (mapLookup s.answers f).isNone) =
        some s.fields[i] := by
      apply find?_eq_of_first (fun f => (mapLookup s.answers f).isNone) s.fields i hi
      · show (mapLookup s.answers s.fields[i]).isNone = true
        rw [hnone]; rfl
      · intro j hj hlt
        show (mapLookup s.answers s.fields[j]).isNone = false
        cases hx : mapLookup s.answers s.fields[j] with
        | none => exact absurd hx (hbefore j hj hlt)
        | some v => rfl
    cases hq : mapLookup s.questions s.fields[i] with
    | none => simp [HandleGetNextQuestion, hfind, hq, humanizeFieldName]
    | some q => simp [HandleGetNextQuestion, hfind, hq]
  · intro h
    have hfind : s.fields.find? (fun f => (mapLookup s.answers f).isNone) = none := by
      apply List.find?_eq_none.2
      intro f hf
      cases hx : mapLookup s.answers f with
      | none => exact absurd hx (h f hf)
      | some v => simp
    simp [HandleGetNextQuestion, hfind]
  · intro hsub hknd hfnd
    exact (filter_answered_length s.fields s.answers hsub hknd hfnd).symm
  · intro hall hsub hknd hfnd
    have hmem : ∀ f ∈ s.fields, f ∈ mapKeys s.answers := by
      intro f hf
      apply (mapLookup_isSome_iff s.answers f).1
      cases hx : mapLookup s.answers f with
      | none => exact absurd hx (hall f hf)
      | some v => rfl
    have := (length_eq_iff_all_mem (mapKeys s.answers) s.fields hsub hknd hfnd).2 hmem
    rwa [mapKeys_length] at this

/-- Witness for C2: the theorem applied at the sample session (first
unanswered field is `"b"`, with an AI-phrased question) and at the fully
answered sample session (the `Done` signal). -/
theorem nextQuestion_spec_witness :
    HandleGetNextQuestion sampleSession =
      { field := "b", fieldType := "", question := "Which b?", isAIPhrased := true
        progress := 1, total := 2, done := false }
    ∧ HandleGetNextQuestion doneSampleSession =
      { field := "", fieldType := "", question := "", isAIPhrased := false
        progress := 2, total := 2, done := true }
    ∧ sampleSession.answers.length =
        (sampleSession.fields.filter
          (fun f => (mapLookup sampleSession.answers f).isSome)).length
    ∧ doneSampleSession.answers.length = doneSampleSession.fields.length := by
  refine ⟨?_, ?_, ?_, ?_⟩
  · have h := (nextQuestion_spec sampleSession).1 1 (by decide) (by decide)
      (fun j hj hlt => by
        have hj0 : j = 0 := by omega
        subst hj0
        exact (by decide :
          mapLookup sampleSession.answers (sampleSession.fields.get ⟨0, Nat.succ_pos 1⟩) ≠ none))
    exact h.trans (by decide)
  · have h := (nextQuestion_spec doneSampleSession).2.1 (by decide)
    exact h.trans (by decide)
  · exact (nextQuestion_spec sampleSession).2.2.1 (by decide) (by decide) (by decide)
  · exact (nextQuestion_spec doneSampleSession).2.2.2 (by decide) (by decide) (by decide)
      (by decide)

/-- **C3.** For every field identifier not present exactly (string equality)
in the session's fields list, `submitAnswer` fails with the field-not-found
error and returns the session — hence the answers map — unchanged; for every
field present in `fields` it writes `answers[field] = answer` and refreshes
`updatedAt`. -/
theorem submitAnswer_spec (now : Nat) (s : Session) (field answer : String) :
    (field ∉ s.fields →
      HandleSubmitAnswers now s field answer =
        (s, .error { error := "invalid_field"
                     message := "Field '" ++ field ++ "' does not exist in this document." }))
    ∧ (field ∈ s.fields →
        (HandleSubmitAnswers now s field answer).1.answers =
            mapInsert s.answers field answer
        ∧ mapLookup (HandleSubmitAnswers now s field answer).1.answers field = some answer
        ∧ (HandleSubmitAnswers now s field answer).1.updatedAt = now
        ∧ (HandleSubmitAnswers now s field answer).1.fields = s.fields
        ∧ (HandleSubmitAnswers now s field answer).2 =
            .ok { message := "Answer saved successfully."
                  field := field
                  progress := (mapInsert s.answers field answer).length + 1
                  total := s.fields.length }) := by
  constructor
  · intro h
    simp [HandleSubmitAnswers, h]
  · intro h
    simp [HandleSubmitAnswers, h, mapLookup_mapInsert_self]

/-- Witness for C3: rejecting an unknown field leaves the sample session
untouched; submitting the known field `"b"` records its answer and the new
timestamp. -/
theorem submitAnswer_spec_witness :
    (HandleSubmitAnswers 7 sampleSession "zzz" "v" =
      (sampleSession, .error {
        error := "invalid_field",
        message := "Field 'zzz' does not exist in this document." }))
    ∧ ((HandleSubmitAnswers 7 sampleSession "b" "v").1.answers =
          mapInsert sampleSession.answers "b" "v"
      ∧ mapLookup (HandleSubmitAnswers 7 sampleSession "b" "v").1.answers "b" = some "v"
      ∧ (HandleSubmitAnswers 7 sampleSession "b" "v").1.updatedAt = 7
      ∧ (HandleSubmitAnswers 7 sampleSession "b" "v").1.fields = sampleSession.fields
      ∧ (HandleSubmitAnswers 7 sampleSession "b" "v").2 =
          .ok {
            message := "Answer saved successfully.",
            field := "b",
            progress := (mapInsert sampleSession.answers "b" "v").length + 1,
            total := sampleSession.fields.length }) :=
  ⟨(submitAnswer_spec 7 sampleSession "zzz" "v").1 (by decide),
   (submitAnswer_spec 7 sampleSession "b" "v").2 (by decide)⟩

/-- **C10.** Every successful `submitAnswer` call replies with
`progress = len(answers-after-update) + 1`: the handler reads the session
object it has already mutated through the store and adds one, so under the
key invariants the reported progress exceeds the actual count of answered
fields by one. -/
theorem submitAnswer_progress (now : Nat) (s : Session) (field answer : String)
    (hmem : field ∈ s.fields)
    (hsub : ∀ k ∈ mapKeys s.answers, k ∈ s.fields)
    (hknd : (mapKeys s.answers).Nodup)
    (hfnd : s.fields.Nodup) :
    ∃ ok, (HandleSubmitAnswers now s field answer).2 = .ok ok
      ∧ ok.progress = (HandleSubmitAnswers now s field answer).1.answers.length + 1
      ∧ ok.progress =
          ((HandleSubmitAnswers now s field answer).1.fields.filter
            (fun f =>
              (mapLookup (HandleSubmitAnswers now s field answer).1.answers f).isSome)).length
            + 1 := by
  refine ⟨{
    message := "Answer saved successfully.",
    field := field,
    progress := (mapInsert s.answers field answer).length + 1,
    total := s.fields.length }, ?_, ?_, ?_⟩
  · simp [HandleSubmitAnswers, hmem]
  · simp [HandleSubmitAnswers, hmem]
  · have hsub' : ∀ k ∈ mapKeys (mapInsert s.answers field answer), k ∈ s.fields := by
      intro k hk
      rcases mem_mapKeys_mapInsert s.answers field answer k hk with h | h
      · exact hsub k h
      · rw [h]; exact hmem
    have hknd' := mapKeys_mapInsert_nodup s.answers field answer hknd
    have hlen :=
      filter_answered_length s.fields (mapInsert s.answers field answer) hsub' hknd' hfnd
    simp [HandleSubmitAnswers, hmem, hlen]

/-- Witness for C10: after submitting `"b"` on the sample session (two fields,
both then answered), the reply reports progress `3` while two fields are
answered. -/
theorem submitAnswer_progress_witness :
    ∃ ok, (HandleSubmitAnswers 7 sampleSession "b" "v").2 = .ok ok
      ∧ ok.progress = (HandleSubmitAnswers 7 sampleSession "b" "v").1.answers.length + 1
      ∧ ok.progress =
          ((HandleSubmitAnswers 7 sampleSession "b" "v").1.fields.filter
            (fun f =>
              (mapLookup (HandleSubmitAnswers 7 sampleSession "b" "v").1.answers f).isSome)).length
            + 1 :=
  submitAnswer_progress 7 sampleSession "b" "v" (by decide) (by decide) (by decide) (by decide)

lemma mem_mapKeys_foldl_mapInsert {β : Type} (f g : β → String) (md : List β)
    (m0 : List (String × String)) (x : String)
    (hx : x ∈ mapKeys (md.foldl (fun acc b => mapInsert acc (f b) (g b)) m0)) :
    x ∈ mapKeys m0 ∨ ∃ b ∈ md, x = f b := by
  induction md generalizing m0 with
  | nil => exact Or.inl (by simpa using hx)
  | cons b rest ih =>
    have h := ih (mapInsert m0 (f b) (g b)) (by simpa using hx)
    rcases h with h | ⟨c, hc, he⟩
    · rcases mem_mapKeys_mapInsert m0 (f b) (g b) x h with h2 | h2
      · exact Or.inl h2
      · exact Or.inr ⟨b, by simp, h2⟩
    · exact Or.inr ⟨c, by simp [hc], he⟩

/-- **C4 (counterexample).** The claimed invariant fails on the code: the
question-enrichment handler writes every key of the oracle-returned metadata
map into `Questions` without checking it against `Fields`, so the session
reached by create(`["a"]`) followed by an enrichment step whose metadata
names `"c"` has a questions key outside its fields list. -/
theorem sessionKeys_subset_counterexample :
    Reachable badEnrichSession ∧
    ¬ (∀ k ∈ mapKeys badEnrichSession.questions, k ∈ badEnrichSession.fields) :=
  ⟨Reachable.enrich [("c", "Q", "text")] 1 (Reachable.create "s" "" ["a"] 0), by decide⟩

/-- **C4 (amended).** For every session state reachable by create and
submitAnswer operations, and by question/type-enrichment operations whose
oracle-returned metadata only names fields of the session, the key sets of
the answers and questions maps are each a subset of the fields list. -/
theorem sessionKeys_subset_of_checked (s : Session) (h : ReachableChecked s) :
    (∀ k ∈ mapKeys s.answers, k ∈ s.fields)
    ∧ (∀ k ∈ mapKeys s.questions, k ∈ s.fields) := by
  induction h with
  | create id doc fields now =>
    constructor <;> intro k hk <;> simp [sessionCreate, mapKeys] at hk
  | @submit now field answer s hs ih =>
    by_cases hmem : field ∈ s.fields
    · have hc : s.fields.contains field = true := by simpa using hmem
      refine ⟨?_, ?_⟩
      · intro k hk
        simp only [HandleSubmitAnswers, hc, if_true] at hk ⊢
        rcases mem_mapKeys_mapInsert s.answers field answer k hk with h2 | h2
        · exact ih.1 k h2
        · rw [h2]; exact hmem
      · intro k hk
        simp only [HandleSubmitAnswers, hc, if_true] at hk ⊢
        exact ih.2 k hk
    · simpa [HandleSubmitAnswers, hmem] using ih
  | @enrich metadata now s hs hguard ih =>
    refine ⟨?_, ?_⟩
    · intro k hk
      simp only [HandleGenerateQuestionsUpdate] at hk ⊢
      exact ih.1 k hk
    · intro k hk
      simp only [HandleGenerateQuestionsUpdate] at hk ⊢
      rcases mem_mapKeys_foldl_mapInsert (fun m => m.1) (fun m => m.2.1) metadata
        s.questions k hk with h2 | ⟨b, hb, he⟩
      · exact ih.2 k h2
      · rw [he]; exact hguard b hb

/-- Witness for the amended C4 at a concrete checked session. -/
theorem sessionKeys_subset_of_checked_witness :
    (∀ k ∈ mapKeys checkedSampleSession.answers, k ∈ checkedSampleSession.fields)
    ∧ (∀ k ∈ mapKeys checkedSampleSession.questions, k ∈ checkedSampleSession.fields) :=
  sessionKeys_subset_of_checked checkedSampleSession
    (ReachableChecked.enrich [("a", "Q", "text")] 2
      (ReachableChecked.submit 1 "a" "x" (ReachableChecked.create "s" "" ["a", "b"] 0))
      (by decide))

/-- **C5 (counterexample).** The upload operation surfaces the *same*
machine-readable error code for a quota-exhausted oracle failure as for a
generic extraction failure: both map to `field_detection_error`, so the
quota condition is collapsed into the generic failure response rather than
surfaced as a distinct condition. -/
theorem uploadQuota_counterexample :
    (uploadOnDetectError DetectError.quotaExhausted).error =
      (uploadOnDetectError (DetectError.generic "Gemini API error (status 500): boom")).error
    ∧ (uploadOnDetectError DetectError.quotaExhausted).error = "field_detection_error" := by
  decide

/-- **C5 (amended).** The extraction layer does produce the quota condition
distinctly (HTTP 429 classifies as the `gemini_quota_exhausted` sentinel,
which `DetectFields` preserves inside its wrapper, distinguishable from any
generic error), but the upload handler answers every detection failure with
the single error code `field_detection_error`; the quota condition survives
only as the wrapped error text inside the human-readable message. -/
theorem uploadQuota_amended :
    (∀ e : DetectError, (uploadOnDetectError e).error = "field_detection_error")
    ∧ (DetectFieldsWrap DetectError.quotaExhausted).kind = DetectError.quotaExhausted
    ∧ (∀ msg, DetectError.quotaExhausted ≠ DetectError.generic msg)
    ∧ detectFieldsWithAIErr 429 "" = DetectError.quotaExhausted
    ∧ (uploadOnDetectError DetectError.quotaExhausted).message =
        "Failed to detect fields in document. Error: AI field detection failed: gemini_quota_exhausted" := by
  refine ⟨fun _ => rfl, rfl, ?_, by decide, by decide⟩
  intro msg h
  cases h

/-- **C6.** If the oracle-assisted placeholder resolution fails for any
reason, the fill operation still produces a document by falling back to the
heuristic placeholder map, whose candidate spellings per field are exactly
the double-brace form, the bracket form with underscores, the bracket form
in title case with spaces, and the bracket form with underscores removed,
each replaced everywhere it occurs verbatim. -/
theorem fillDocument_fallback (reason doc : String) (answers : List (String × String)) :
    FillDocument (.fail reason) doc answers =
      .ok (applyReplacements (createSimplePlaceholderMap answers) doc)
    ∧ (∀ p v, (p, v) ∈ createSimplePlaceholderMap answers ↔
        ∃ fa ∈ answers, v = fa.2 ∧
          (p = "\x7b\x7b" ++ fa.1 ++ "\x7d\x7d" ∨ p = "[" ++ fa.1 ++ "]" ∨
           p = "[" ++ stringsTitle (underscoresToSpaces fa.1) ++ "]" ∨
           p = "[" ++ removeUnderscores fa.1 ++ "]")) := by
  constructor
  · rfl
  · intro p v
    simp only [createSimplePlaceholderMap, List.mem_flatMap, List.mem_cons,
      List.not_mem_nil, or_false, Prod.mk.injEq]
    constructor
    · rintro ⟨fa, hfa, h⟩
      rcases h with ⟨hp, hv⟩ | ⟨hp, hv⟩ | ⟨hp, hv⟩ | ⟨hp, hv⟩ <;>
        exact ⟨fa, hfa, hv, by simp [hp]⟩
    · rintro ⟨fa, hfa, hv, h⟩
      refine ⟨fa, hfa, ?_⟩
      rcases h with hp | hp | hp | hp <;> simp [hp, hv]

/-- **C9 (evaluation at the failing input).** On a freshly created session
with the single unanswered field `"age"` — whose stored field type is
`"number"` — the next-question response carries field type `""`: the handler
never copies `FieldTypes` into the reply, so the claimed field-type component
is absent (Go zero value). -/
theorem nextQuestion_fieldType_missing :
    (HandleGetNextQuestion (sessionCreate "s" "" ["age"] 0)).fieldType = ""
    ∧ mapLookup (sessionCreate "s" "" ["age"] 0).fieldTypes "age" = some "number"
    ∧ (HandleGetNextQuestion (sessionCreate "s" "" ["age"] 0)).field = "age" := by
  decide

lemma isFieldChar_ranges (c : Char) (h : isFieldChar c = true) :
    (97 ≤ c.toNat ∧ c.toNat ≤ 122) ∨ (48 ≤ c.toNat ∧ c.toNat ≤ 57) ∨ c.toNat = 95 := by
  have h' : (97 ≤ c.toNat ∧ c.toNat ≤ 122 ∨ 48 ≤ c.toNat ∧ c.toNat ≤ 57) ∨
      c.toNat = 95 := by
    simpa [isFieldChar] using h
  tauto

lemma isFieldChar_toLower (c : Char) (h : isFieldChar c = true) : c.toLower = c := by
  have hr := isFieldChar_ranges c h
  have hn : ¬ (c.toNat ≥ 65 ∧ c.toNat ≤ 90) := by
    rcases hr with ⟨h1, h2⟩ | ⟨h1, h2⟩ | h1 <;> omega
  simp only [Char.toLower]
  rw [if_neg hn]

lemma isFieldChar_not_inCutset (c : Char) (h : isFieldChar c = true) :
    inCutset c = false := by
  have hr := isFieldChar_ranges c h
  by_contra hc
  rw [Bool.not_eq_false] at hc
  have hc' : c ∈ ['[', ']', '{', '}', '(', ')', '$'] := by simpa [inCutset] using hc
  simp only [List.mem_cons, List.not_mem_nil, or_false] at hc'
  rcases hc' with hc' | hc' | hc' | hc' | hc' | hc' | hc' <;>
    · rw [hc'] at hr
      revert hr
      decide

lemma isFieldChar_not_whitespace (c : Char) (h : isFieldChar c = true) :
    c.isWhitespace = false := by
  have hr := isFieldChar_ranges c h
  by_contra hc
  rw [Bool.not_eq_false] at hc
  have hc4 : c = ' ' ∨ c = '\t' ∨ c = '\r' ∨ c = '\n' := by
    simpa [Char.isWhitespace, or_assoc] using hc
  rcases hc4 with hc' | hc' | hc' | hc' <;>
    · subst hc'
      revert hr
      decide

lemma isFieldChar_ne_space (c : Char) (h : isFieldChar c = true) :
    (c == ' ') = false := by
  have hr := isFieldChar_ranges c h
  by_contra hc
  rw [Bool.not_eq_false, beq_iff_eq] at hc
  rw [hc] at hr
  revert hr
  decide

lemma dropWhile_eq_self_of_false (p : Char → Bool) (l : List Char)
    (h : ∀ c ∈ l, p c = false) : l.dropWhile p = l := by
  cases l with
  | nil => rfl
  | cons a as => simp [List.dropWhile_cons, h a (by simp)]

lemma trimList_eq_self (p : Char → Bool) (l : List Char)
    (h : ∀ c ∈ l, p c = false) : trimList p l = l := by
  unfold trimList
  rw [dropWhile_eq_self_of_false p l h,
    dropWhile_eq_self_of_false p l.reverse (fun c hc => h c (List.mem_reverse.1 hc)),
    List.reverse_reverse]

lemma normalizeChars_all_field (l : List Char) :
    ∀ c ∈ normalizeChars l, isFieldChar c = true := by
  intro c hc
  exact List.of_mem_filter hc

lemma normalizeChars_of_all_field (l : List Char)
    (h : ∀ c ∈ l, isFieldChar c = true) : normalizeChars l = l := by
  have h1 : trimList inCutset l = l :=
    trimList_eq_self _ _ (fun c hc => isFieldChar_not_inCutset c (h c hc))
  have h2 : trimList Char.isWhitespace l = l :=
    trimList_eq_self _ _ (fun c hc => isFieldChar_not_whitespace c (h c hc))
  have h3 : l.map Char.toLower = l := by
    rw [List.map_congr_left (g := fun c => c) (fun c hc => isFieldChar_toLower c (h c hc))]
    exact List.map_id' l
  have h4 : l.map (fun c => if c == ' ' then '_' else c) = l := by
    rw [List.map_congr_left
      (g := fun c => c) (fun c hc => by simp [isFieldChar_ne_space c (h c hc)])]
    exact List.map_id' l
  have h5 : l.filter isFieldChar = l := List.filter_eq_self.2 (by
    intro a ha
    rw [h a ha])
  simp only [normalizeChars, h1, h2, h3, h4, h5]

/-- **C7.** Field-name normalization is idempotent: the output of
`normalizeFieldName` consists only of `[a-z0-9_]` characters, on which every
stage of the function is the identity. -/
theorem normalizeFieldName_idempotent (x : String) :
    normalizeFieldName (normalizeFieldName x) = normalizeFieldName x :=
  congrArg String.mk
    (normalizeChars_of_all_field (normalizeChars x.data) (normalizeChars_all_field x.data))

lemma charListLe_total : ∀ l m : List Char, charListLe l m = true ∨ charListLe m l = true
  | [], _ => Or.inl rfl
  | _ :: _, [] => Or.inr rfl
  | a :: as, b :: bs => by
    rcases lt_trichotomy a b with h | h | h
    · exact Or.inl (by simp [charListLe, h])
    · subst h
      rcases charListLe_total as bs with h' | h'
      · exact Or.inl (by simp [charListLe, h'])
      · exact Or.inr (by simp [charListLe, h'])
    · exact Or.inr (by simp [charListLe, h])

lemma charListLe_trans : ∀ l m n : List Char,
    charListLe l m = true → charListLe m n = true → charListLe l n = true
  | [], _, _, _, _ => rfl
  | _ :: _, [], _, hab, _ => by simp [charListLe] at hab
  | _ :: _, _ :: _, [], _, hbc => by simp [charListLe] at hbc
  | a :: as, b :: bs, c :: cs, hab, hbc => by
    by_cases h1 : a < b
    · by_cases h2 : b < c
      · simp [charListLe, lt_trans h1 h2]
      · by_cases h3 : c < b
        · simp [charListLe, h2, h3] at hbc
        · have hbceq : b = c := le_antisymm (not_lt.1 h3) (not_lt.1 h2)
          subst hbceq
          simp [charListLe, h1]
    · by_cases h4 : b < a
      · simp [charListLe, h1, h4] at hab
      · have hbaeq : a = b := le_antisymm (not_lt.1 h4) (not_lt.1 h1)
        subst hbaeq
        by_cases h2 : a < c
        · simp [charListLe, h2]
        · by_cases h3 : c < a
          · simp [charListLe, h2, h3] at hbc
          · have h5 : charListLe as bs = true := by simpa [charListLe, h1] using hab
            have h6 : charListLe bs cs = true := by simpa [charListLe, h2, h3] using hbc
            simpa [charListLe, h2, h3] using charListLe_trans as bs cs h5 h6

instance : IsTotal String (fun a b => strLeGo a b = true) :=
  ⟨fun a b => charListLe_total a.data b.data⟩

instance : IsTrans String (fun a b => strLeGo a b = true) :=
  ⟨fun a b c hab hbc => charListLe_trans a.data b.data c.data hab hbc⟩

/-- **C8 (counterexample).** The claim normalizes per the spec's stated rule
"whitespace replaced by underscore", but the code replaces only the space
character, and the trailing character filter strips any other whitespace:
for the oracle output `["a\tb"]` the extractor returns `["ab"]`, while the
stated rule's normalization of `"a\tb"` is `"a_b"` — so the element is not
the stated-rule normalization of any input. -/
theorem detectNormalize_counterexample :
    ¬ (∀ f ∈ detectFieldsWithAIPost ["a\tb"],
        ∃ x ∈ ["a\tb"], f = specNormalizeFieldName x) := by
  decide

/-- **C8 (amended).** For every oracle-returned list of field names, the
extractor's output is sorted lexicographically (byte-order of `sort.Strings`),
contains no duplicates, and each element is the `normalizeFieldName` image of
some input name — the code's rule: lowercase, the space character (only)
replaced by underscore, characters outside `[a-z0-9_]` (including all other
whitespace) stripped, surrounding bracket/brace/paren/dollar markers
trimmed. -/
theorem detectNormalize_amended (fieldList : List String) :
    List.Sorted (fun a b => strLeGo a b = true) (detectFieldsWithAIPost fieldList)
    ∧ (detectFieldsWithAIPost fieldList).Nodup
    ∧ ∀ f ∈ detectFieldsWithAIPost fieldList, ∃ x ∈ fieldList, f = normalizeFieldName x := by
  refine ⟨?_, ?_, ?_⟩
  · exact List.sorted_insertionSort _ _
  · exact (List.perm_insertionSort
      (fun a b => strLeGo a b = true) ((fieldList.map normalizeFieldName).dedup)).symm.nodup
      (List.nodup_dedup _)
  · intro f hf
    have h1 : f ∈ (fieldList.map normalizeFieldName).dedup := by
      simpa [detectFieldsWithAIPost] using hf
    rcases List.mem_map.1 (List.mem_dedup.1 h1) with ⟨x, hx, he⟩
    exact ⟨x, hx, he.symm⟩

end DocuFlow
